import Mathlib

/-!
Verification of the VSCX convenience facade (a TypeScript wrapper library
over a code editor's extension API).

The two components with real logic are embedded here, translated from the
source:

* the quick-pick string parser `_strToQP` (string → structured selection
  entry), together with the JS string primitives it uses (`split` on a
  two-character token, `join`, `trim`, `trimStart`, `startsWith`, `slice`),
* the timed progress simulator `temporaryMessage`, embedded as the list of
  scheduling operations its synchronous invocation turn performs, plus an
  interpreter for the host runtime's timer facility (an event-loop model),
* the text utilities `camelize` and `withinCharLimit`.

JS strings are modelled as Lean `String`s (lists of characters); the inputs
involved are ASCII, where JS UTF-16 code-unit operations, the JS whitespace
class and `Char.isWhitespace`, and JS `toLowerCase`/`toUpperCase` versus
`Char.toLower`/`Char.toUpper` all agree.
-/

namespace VSCX

/-- Model of JS `String.prototype.trimStart`: remove leading whitespace. -/
def jsTrimStart (s : String) : String :=
  String.mk (s.data.dropWhile Char.isWhitespace)

/-- Model of JS `String.prototype.trimEnd`: remove trailing whitespace. -/
def jsTrimEnd (s : String) : String :=
  String.mk ((s.data.reverse.dropWhile Char.isWhitespace).reverse)

/-- Model of JS `String.prototype.trim`: remove leading and trailing
whitespace. -/
def jsTrim (s : String) : String :=
  jsTrimEnd (jsTrimStart s)

/-- Model of JS `String.prototype.startsWith`. -/
def jsStartsWith (s pre : String) : Bool :=
  pre.data.isPrefixOf s.data

/-- Core of the model of JS `String.prototype.split` with a two-character
string separator `a b` (both separators appearing in the source, `"::"` and
`"??"`, have two characters).  Scans left to right; at the leftmost match
the current piece is emitted and scanning resumes after the separator
(non-overlapping matches, exactly as JS `split`).  `acc` holds the current
piece in reverse. -/
def splitOn2Aux (a b : Char) : List Char → List Char → List (List Char)
  | [], acc => [acc.reverse]
  | [c], acc => [(c :: acc).reverse]
  | c :: d :: cs, acc =>
    if c = a ∧ d = b then acc.reverse :: splitOn2Aux a b cs []
    else splitOn2Aux a b (d :: cs) (c :: acc)

/-- Model of JS `s.split(pattern)` for the two-character pattern `⟨a, b⟩`. -/
def jsSplit2 (a b : Char) (s : String) : List String :=
  (splitOn2Aux a b s.data []).map String.mk

/-- Model of JS `Array.prototype.join(sep)`. -/
def jsJoin (sep : String) : List String → String
  | [] => ""
  | [x] => x
  | x :: y :: rest => x ++ sep ++ jsJoin sep (y :: rest)

/-- The local `split` helper inside `_strToQP` (part_001 lines 620-628):
splits on the two-character pattern, and when more than two parts result,
rejoins everything after the first part back into a single tail using the
pattern (`parts = [parts[0], parts.slice(1).join(pattern)]`). -/
def splitQP (a b : Char) (s : String) : List String :=
  let parts := jsSplit2 a b s
  if 2 < parts.length then
    [parts.headD "", jsJoin (String.mk [a, b]) (parts.drop 1)]
  else parts

/-- The record produced by `_strToQP`.  The separator branch of the source
returns a JS object `{label, kind: 'SEP'}`; its absent fields (`undefined`)
are modelled by the defaults `""`/`false`, and `kind: 'SEP'` by
`isSeparator := true`. -/
structure QPItem where
  label : String
  description : String
  detail : String
  alwaysShow : Bool
  isSeparator : Bool
deriving Repr, DecidableEq

/-- Translation of `_strToQP` (part_001 lines 607-659).  Note the separator
branch takes `text.slice(0, 5)` — the first five characters, i.e. the
`"-----"` marker itself — as the label, exactly as the source does. -/
def _strToQP (text : String) : QPItem :=
  if jsStartsWith text "-----" then
    { label := jsTrimStart (String.mk (text.data.take 5)),
      description := "", detail := "",
      alwaysShow := false, isSeparator := true }
  else
    let firstSplit := splitQP ':' ':' text
    let label := firstSplit.headD ""
    let description := if 1 < firstSplit.length then firstSplit.getD 1 "" else ""
    let text1 := if 1 < firstSplit.length then firstSplit.getD 1 "" else firstSplit.headD ""
    let secondSplit := splitQP '?' '?' text1
    let description1 :=
      if 1 < secondSplit.length then
        (if description ≠ "" then secondSplit.headD "" else description)
      else description
    let detail := if 1 < secondSplit.length then secondSplit.getD 1 "" else ""
    { label := jsTrim label,
      description := jsTrim description1,
      detail := jsTrim detail,
      alwaysShow := true, isSeparator := false }

example : _strToQP "Label::Desc??Detail" =
    { label := "Label", description := "Desc", detail := "Detail",
      alwaysShow := true, isSeparator := false } := by decide

example : _strToQP "Label::Part1::Part2??Detail" =
    { label := "Label", description := "Part1::Part2", detail := "Detail",
      alwaysShow := true, isSeparator := false } := by decide

example : _strToQP "----- Section A" =
    { label := "-----", description := "", detail := "",
      alwaysShow := false, isSeparator := true } := by decide

example : _strToQP "  Label  ::  Desc  " =
    { label := "Label", description := "Desc", detail := "",
      alwaysShow := true, isSeparator := false } := by decide

example : _strToQP "Foo??Bar" =
    { label := "Foo??Bar", description := "", detail := "Bar",
      alwaysShow := true, isSeparator := false } := by decide

example : _strToQP "" =
    { label := "", description := "", detail := "",
      alwaysShow := true, isSeparator := false } := by decide

/-! ### Spec-level vocabulary: first-occurrence splitting

The spec describes the parser in terms of "the part before / after the
first occurrence" of a delimiter token, with later occurrences rejoined
into the tail.  `beforeFirst` and `afterFirst` are these notions. -/

/-- The part of `s` before the first occurrence of the two-character token
`⟨a, b⟩`; the whole of `s` when the token does not occur. -/
def beforeFirst (a b : Char) (s : String) : String :=
  (jsSplit2 a b s).headD ""

/-- The part of `s` after the first occurrence of the two-character token
`⟨a, b⟩`, all later occurrences rejoined; `none` when the token does not
occur in `s`. -/
def afterFirst (a b : Char) (s : String) : Option String :=
  match jsSplit2 a b s with
  | _ :: p :: ps => some (jsJoin (String.mk [a, b]) (p :: ps))
  | _ => none

/-- The remainder searched for the description/detail token: the part after
the first `"::"`, or the whole string when `"::"` is absent. -/
def qpRemainder (s : String) : String :=
  (afterFirst ':' ':' s).getD s

/-- The description the parser produces (before trimming): empty when
`"::"` is absent; otherwise the part of the remainder before the first
`"??"` (the whole remainder when `"??"` is absent). -/
def qpDescriptionRaw (s : String) : String :=
  match afterFirst ':' ':' s with
  | none => ""
  | some d0 => beforeFirst '?' '?' d0

/-- The detail the parser produces (before trimming): the part of the
remainder after the first `"??"`, or empty when `"??"` is absent. -/
def qpDetailRaw (s : String) : String :=
  (afterFirst '?' '?' (qpRemainder s)).getD ""

/-! ### Structure lemmas for the splitter -/

theorem splitOn2Aux_ne_nil (a b : Char) (l acc : List Char) :
    splitOn2Aux a b l acc ≠ [] := by
  induction l, acc using splitOn2Aux.induct a b with
  | case1 acc => simp [splitOn2Aux]
  | case2 c acc => simp [splitOn2Aux]
  | case3 c d cs acc h ih => simp [splitOn2Aux, h]
  | case4 c d cs acc h ih => simpa [splitOn2Aux, h] using ih

theorem jsSplit2_ne_nil (a b : Char) (s : String) : jsSplit2 a b s ≠ [] := by
  simpa [jsSplit2] using splitOn2Aux_ne_nil a b s.data []

theorem jsJoin_cons (sep x : String) (r : List String) (h : r ≠ []) :
    jsJoin sep (x :: r) = x ++ sep ++ jsJoin sep r := by
  cases r with
  | nil => exact absurd rfl h
  | cons y ys => rfl

theorem mk_append (l m : List Char) :
    String.mk l ++ String.mk m = String.mk (l ++ m) := rfl

theorem jsJoin_splitOn2Aux (a b : Char) (l acc : List Char) :
    jsJoin (String.mk [a, b]) ((splitOn2Aux a b l acc).map String.mk) =
      String.mk (acc.reverse ++ l) := by
  induction l, acc using splitOn2Aux.induct a b with
  | case1 acc => simp [splitOn2Aux, jsJoin]
  | case2 c acc => simp [splitOn2Aux, jsJoin]
  | case3 c d cs acc h ih =>
    rw [splitOn2Aux, if_pos h, List.map_cons,
      jsJoin_cons _ _ _ (by simpa using splitOn2Aux_ne_nil a b cs []), ih]
    obtain ⟨ha, hb⟩ := h
    subst ha; subst hb
    simp [mk_append]
  | case4 c d cs acc h ih =>
    rw [splitOn2Aux, if_neg h, ih]
    simp

/-- Splitting and rejoining with the token recovers the original string. -/
theorem jsJoin_jsSplit2 (a b : Char) (s : String) :
    jsJoin (String.mk [a, b]) (jsSplit2 a b s) = s := by
  simpa [jsSplit2] using jsJoin_splitOn2Aux a b s.data []

theorem beforeFirst_of_afterFirst_none (a b : Char) (s : String)
    (h : afterFirst a b s = none) : beforeFirst a b s = s := by
  have hj := jsJoin_jsSplit2 a b s
  unfold afterFirst at h
  unfold beforeFirst
  rcases hs : jsSplit2 a b s with _ | ⟨x, _ | ⟨y, ys⟩⟩
  · exact absurd hs (jsSplit2_ne_nil a b s)
  · rw [hs] at hj; simpa [jsJoin] using hj
  · rw [hs] at h; simp at h

theorem afterFirst_empty (a b : Char) : afterFirst a b "" = none := rfl

theorem ne_empty_of_afterFirst_some (a b : Char) (s r : String)
    (h : afterFirst a b s = some r) : s ≠ "" := by
  intro he
  rw [he, afterFirst_empty] at h
  exact Option.noConfusion h

theorem splitQP_of_afterFirst_none (a b : Char) (s : String)
    (h : afterFirst a b s = none) : splitQP a b s = [beforeFirst a b s] := by
  unfold afterFirst at h
  unfold splitQP beforeFirst
  rcases hs : jsSplit2 a b s with _ | ⟨x, _ | ⟨y, ys⟩⟩
  · exact absurd hs (jsSplit2_ne_nil a b s)
  · simp
  · rw [hs] at h; simp at h

theorem splitQP_of_afterFirst_some (a b : Char) (s r : String)
    (h : afterFirst a b s = some r) : splitQP a b s = [beforeFirst a b s, r] := by
  unfold afterFirst at h
  unfold splitQP beforeFirst
  rcases hs : jsSplit2 a b s with _ | ⟨x, _ | ⟨y, _ | ⟨z, zs⟩⟩⟩
  · exact absurd hs (jsSplit2_ne_nil a b s)
  · rw [hs] at h; simp at h
  · rw [hs] at h
    simp only [Option.some.injEq] at h
    simp [← h, jsJoin]
  · rw [hs] at h
    simp only [Option.some.injEq] at h
    simp [← h]

/-- Characterization of the parser on non-separator strings: the label is
the trimmed part before the first `"::"`, and description/detail are the
trimmed spec-level raw fields. -/
theorem strToQP_eq_of_not_sep (s : String) (h : jsStartsWith s "-----" = false) :
    _strToQP s =
      { label := jsTrim (beforeFirst ':' ':' s),
        description := jsTrim (qpDescriptionRaw s),
        detail := jsTrim (qpDetailRaw s),
        alwaysShow := true, isSeparator := false } := by
  unfold _strToQP
  rw [h]
  simp only [Bool.false_eq_true, if_false]
  rcases h1 : afterFirst ':' ':' s with _ | r
  · rw [splitQP_of_afterFirst_none ':' ':' s h1]
    have hb : beforeFirst ':' ':' s = s := beforeFirst_of_afterFirst_none ':' ':' s h1
    simp only [List.length_singleton, List.headD_cons, hb]
    norm_num
    rcases h2 : afterFirst '?' '?' s with _ | d
    · rw [splitQP_of_afterFirst_none '?' '?' s h2]
      simp [qpDescriptionRaw, qpDetailRaw, qpRemainder, h1, h2, jsTrim, jsTrimStart, jsTrimEnd]
    · rw [splitQP_of_afterFirst_some '?' '?' s d h2]
      simp [qpDescriptionRaw, qpDetailRaw, qpRemainder, h1, h2, jsTrim, jsTrimStart, jsTrimEnd]
  · rw [splitQP_of_afterFirst_some ':' ':' s r h1]
    simp only [List.length_cons, List.length_singleton, List.headD_cons]
    norm_num
    rcases h2 : afterFirst '?' '?' r with _ | d
    · rw [splitQP_of_afterFirst_none '?' '?' r h2]
      have hb : beforeFirst '?' '?' r = r := beforeFirst_of_afterFirst_none '?' '?' r h2
      simp [qpDescriptionRaw, qpDetailRaw, qpRemainder, h1, h2, hb]
    · rw [splitQP_of_afterFirst_some '?' '?' r d h2]
      have hr : r ≠ "" := ne_empty_of_afterFirst_some '?' '?' r d h2
      simp [qpDescriptionRaw, qpDetailRaw, qpRemainder, h1, h2, hr]

/-! ### Trimming is idempotent -/

theorem dropWhile_dropWhile (p : Char → Bool) (l : List Char) :
    (l.dropWhile p).dropWhile p = l.dropWhile p := by
  rcases h : l.dropWhile p with _ | ⟨c, t⟩
  · simp
  · have hc : p c = false := by
      have hh := List.head?_dropWhile_not p l
      rw [h] at hh
      simpa using hh
    simp [List.dropWhile_cons, hc]

theorem p_head_false_of_dropWhile_self (p : Char → Bool) (c : Char)
    (r : List Char) (h : List.dropWhile p (c :: r) = c :: r) : p c = false := by
  by_contra hc
  have hc' : p c = true := by simpa using hc
  rw [List.dropWhile_cons, if_pos hc'] at h
  have hl : (r.dropWhile p).length ≤ r.length := (List.dropWhile_sublist p).length_le
  rw [h] at hl
  simp at hl

theorem dropWhile_revDropWhile_of_self (p : Char → Bool) (m : List Char)
    (hm : m.dropWhile p = m) :
    ((m.reverse.dropWhile p).reverse).dropWhile p = (m.reverse.dropWhile p).reverse := by
  rcases hX : (m.reverse.dropWhile p).reverse with _ | ⟨c, t⟩
  · simp
  · have hpre : (m.reverse.dropWhile p).reverse <+: m := by
      rw [← List.reverse_suffix]
      simpa [List.reverse_reverse] using List.dropWhile_suffix (l := m.reverse) p
    rw [hX] at hpre
    obtain ⟨u, hu⟩ := hpre
    have hc : p c = false := by
      apply p_head_false_of_dropWhile_self p c (t ++ u)
      have : m = c :: (t ++ u) := by rw [← hu]; simp
      rw [← this, hm]
    simp [List.dropWhile_cons, hc]

theorem jsTrimEnd_idem (s : String) : jsTrimEnd (jsTrimEnd s) = jsTrimEnd s := by
  simp [jsTrimEnd, List.reverse_reverse, dropWhile_dropWhile]

theorem jsTrimStart_jsTrim (s : String) : jsTrimStart (jsTrim s) = jsTrim s := by
  unfold jsTrim jsTrimEnd jsTrimStart
  exact congrArg String.mk
    (dropWhile_revDropWhile_of_self Char.isWhitespace _
      (dropWhile_dropWhile Char.isWhitespace s.data))

theorem jsTrim_idem (s : String) : jsTrim (jsTrim s) = jsTrim s := by
  show jsTrimEnd (jsTrimStart (jsTrim s)) = jsTrim s
  rw [jsTrimStart_jsTrim]
  show jsTrimEnd (jsTrimEnd (jsTrimStart s)) = jsTrimEnd (jsTrimStart s)
  exact jsTrimEnd_idem (jsTrimStart s)

/-- On any string matching the separator marker, the parser returns the
marker itself as the caption: `text.slice(0, 5)` is the first five
characters, i.e. exactly `"-----"`, and stripping leading whitespace from
it changes nothing — whatever follows the marker is discarded. -/
theorem strToQP_separator_all (s : String) (h : jsStartsWith s "-----" = true) :
    _strToQP s =
      { label := "-----", description := "", detail := "",
        alwaysShow := false, isSeparator := true } := by
  unfold _strToQP
  rw [h]
  simp only [if_true]
  have hpre : ("-----" : String).data <+: s.data := by
    simpa [jsStartsWith, List.isPrefixOf_iff_prefix] using h
  obtain ⟨t, ht⟩ := hpre
  have htake : s.data.take 5 = ("-----" : String).data := by
    rw [← ht]
    exact List.take_left ("-----" : String).data t
  rw [htake]
  rfl

/-! ### Claim theorems for the quick-pick parser -/

/-- C1: evaluating the parser at the spec's own example `"----- Section A"`:
the separator entry's caption is `"-----"` (the marker itself, from
`text.slice(0, 5)`), not the remainder `"Section A"` that the claim — and
the source's own comment "Any string of \"----- TEXT\" becomes a separator
with a label of TEXT" — require. -/
theorem claim1_separator_caption_is_marker :
    _strToQP "----- Section A" =
      { label := "-----", description := "", detail := "",
        alwaysShow := false, isSeparator := true } := by decide

/-- C2 counterexample: for `"Foo??Bar"` the remainder (the whole string, as
`"::"` is absent) contains `"??"` and the description was not set by the
`"::"` split, yet the parser leaves the description empty instead of
setting it to the part before the `"??"` (`"Foo"`), refuting the claim's
"sets the description from the part before that ?? if the description was
not already set". -/
theorem claim2_counterexample :
    (_strToQP "Foo??Bar").detail = "Bar" ∧
    (_strToQP "Foo??Bar").description ≠ beforeFirst '?' '?' (qpRemainder "Foo??Bar") := by
  decide

/-- C2 (amended): for every non-separator string whose remainder (part
after the first `"::"`, or the whole string if `"::"` is absent) contains
`"??"`, the detail is the trimmed part after the first `"??"`, and the
description is the trimmed `qpDescriptionRaw`: the part before that `"??"`
exactly when the description was already set by the `"::"` split, and empty
otherwise.  `parse("Label::Desc??Detail")` yields
`{label:"Label", description:"Desc", detail:"Detail"}`. -/
theorem claim2_detail_description_after_qq :
    (∀ s d, jsStartsWith s "-----" = false →
      afterFirst '?' '?' (qpRemainder s) = some d →
      (_strToQP s).detail = jsTrim d ∧
      (_strToQP s).description = jsTrim (qpDescriptionRaw s)) ∧
    _strToQP "Label::Desc??Detail" =
      { label := "Label", description := "Desc", detail := "Detail",
        alwaysShow := true, isSeparator := false } := by
  constructor
  · intro s d h hq
    rw [strToQP_eq_of_not_sep s h]
    exact ⟨by simp [qpDetailRaw, hq], rfl⟩
  · decide

theorem claim2_witness :
    (_strToQP "Label::Desc??Detail").detail = jsTrim "Detail" ∧
    (_strToQP "Label::Desc??Detail").description =
      jsTrim (qpDescriptionRaw "Label::Desc??Detail") :=
  claim2_detail_description_after_qq.1 "Label::Desc??Detail" "Detail"
    (by decide) (by decide)

/-- C3: for every non-separator string in which `"::"` occurs more than
once (the JS split yields more than two parts), only the first occurrence
splits: the label is the trimmed part before the first `"::"`, and the tail
`r` — everything after the first `"::"` with the later occurrences rejoined
by `afterFirst` — is what the `"??"` split is applied to, giving the
description (part of `r` before the first `"??"`) and the detail (part of
`r` after it).  `parse("Label::Part1::Part2??Detail")` yields
`{label:"Label", description:"Part1::Part2", detail:"Detail"}`. -/
theorem claim3_only_first_label_delim_splits :
    (∀ s r, jsStartsWith s "-----" = false →
      afterFirst ':' ':' s = some r →
      2 < (jsSplit2 ':' ':' s).length →
      (_strToQP s).label = jsTrim (beforeFirst ':' ':' s) ∧
      (_strToQP s).description = jsTrim (beforeFirst '?' '?' r) ∧
      (_strToQP s).detail = jsTrim ((afterFirst '?' '?' r).getD "")) ∧
    _strToQP "Label::Part1::Part2??Detail" =
      { label := "Label", description := "Part1::Part2", detail := "Detail",
        alwaysShow := true, isSeparator := false } := by
  constructor
  · intro s r h hr _
    rw [strToQP_eq_of_not_sep s h]
    refine ⟨rfl, ?_, ?_⟩
    · simp [qpDescriptionRaw, hr]
    · simp [qpDetailRaw, qpRemainder, hr]
  · decide

theorem claim3_witness :
    (_strToQP "Label::Part1::Part2??Detail").label =
      jsTrim (beforeFirst ':' ':' "Label::Part1::Part2??Detail") ∧
    (_strToQP "Label::Part1::Part2??Detail").description =
      jsTrim (beforeFirst '?' '?' "Part1::Part2??Detail") ∧
    (_strToQP "Label::Part1::Part2??Detail").detail =
      jsTrim ((afterFirst '?' '?' "Part1::Part2??Detail").getD "") :=
  claim3_only_first_label_delim_splits.1 "Label::Part1::Part2??Detail"
    "Part1::Part2??Detail" (by decide) (by decide) (by decide)

/-- C7: on every non-separator string all three output text fields are
trimmed of leading and trailing whitespace (each is a fixed point of
`jsTrim`), and `parse("  Label  ::  Desc  ")` yields
`{label:"Label", description:"Desc", detail:""}`. -/
theorem claim7_fields_trimmed :
    (∀ s, jsStartsWith s "-----" = false →
      jsTrim (_strToQP s).label = (_strToQP s).label ∧
      jsTrim (_strToQP s).description = (_strToQP s).description ∧
      jsTrim (_strToQP s).detail = (_strToQP s).detail) ∧
    _strToQP "  Label  ::  Desc  " =
      { label := "Label", description := "Desc", detail := "",
        alwaysShow := true, isSeparator := false } := by
  constructor
  · intro s h
    rw [strToQP_eq_of_not_sep s h]
    exact ⟨jsTrim_idem _, jsTrim_idem _, jsTrim_idem _⟩
  · decide

theorem claim7_witness :
    jsTrim (_strToQP "JustLabel").label = (_strToQP "JustLabel").label ∧
    jsTrim (_strToQP "JustLabel").description = (_strToQP "JustLabel").description ∧
    jsTrim (_strToQP "JustLabel").detail = (_strToQP "JustLabel").detail :=
  claim7_fields_trimmed.1 "JustLabel" (by decide)

/-- C8: the parser is a total Lean function `String → QPItem` (translated
from source that applies only `split`/`join`/`trim`, none of which can
throw); the empty string produces a well-formed entry with all text fields
empty, and on every non-separator string the description defaults to the
empty string when `"::"` is absent and the detail defaults to the empty
string when the remainder has no `"??"`. -/
theorem claim8_total_defaults :
    _strToQP "" = { label := "", description := "", detail := "",
                    alwaysShow := true, isSeparator := false } ∧
    (∀ s, jsStartsWith s "-----" = false →
      (afterFirst ':' ':' s = none → (_strToQP s).description = "") ∧
      (afterFirst '?' '?' (qpRemainder s) = none → (_strToQP s).detail = "")) := by
  constructor
  · decide
  · intro s h
    rw [strToQP_eq_of_not_sep s h]
    constructor
    · intro hn
      simp [qpDescriptionRaw, hn, jsTrim, jsTrimStart, jsTrimEnd]
    · intro hn
      simp [qpDetailRaw, hn, jsTrim, jsTrimStart, jsTrimEnd]

theorem claim8_witness :
    (_strToQP "JustALabel").description = "" ∧
    (_strToQP "JustALabel").detail = "" :=
  ⟨(claim8_total_defaults.2 "JustALabel" (by decide)).1 (by decide),
   (claim8_total_defaults.2 "JustALabel" (by decide)).2 (by decide)⟩

/-! ### Text utilities: `camelize` and `withinCharLimit`

JS `split` with a regex of the form `/X+/` (a character class repeated)
splits on *maximal runs* of class characters: a run of consecutive
separators produces one split point, while a separator at the very start
(or end) of the string still yields a leading (or trailing) empty piece.
`splitRunsAux` implements exactly that; `prevSep` records whether the
previous character was a separator (i.e. scanning is inside a run). -/

def splitRunsAux (p : Char → Bool) : List Char → List Char → Bool → List (List Char)
  | [], acc, _ => [acc.reverse]
  | c :: cs, acc, prevSep =>
    if p c then
      if prevSep then splitRunsAux p cs acc true
      else acc.reverse :: splitRunsAux p cs [] true
    else splitRunsAux p cs (c :: acc) false

/-- Model of JS `s.split(/X+/)` where the class `X` is the set of
characters satisfying `p`. -/
def jsSplitRuns (p : Char → Bool) (s : String) : List String :=
  (splitRunsAux p s.data [] false).map String.mk

/-- The per-word transform in `camelize`:
`w.charAt(0).toUpperCase() + w.slice(1).toLowerCase()`. -/
def capitalizeWord (w : String) : String :=
  match w.data with
  | [] => ""
  | c :: cs => String.mk (c.toUpper :: cs.map Char.toLower)

/-- Translation of `camelize` (part_001 lines 1016-1045 / index.ts lines
422-448).  `words` is `text.trim().split(/[^a-zA-Z0-9]+/).filter(w => w)`:
the pieces between maximal runs of non-alphanumeric characters, with the
empty pieces filtered out.  When `words` is empty, the JS expression
`words[0].toLowerCase()` reads element 0 of an empty array (`undefined`)
and calling `.toLowerCase()` on it throws a `TypeError`; this is modelled
by `none`.  The leading/trailing underscore runs are taken from the
original (untrimmed) text, as in the source's `text.match(/^_+/)` and
`text.match(/_+$/)`. -/
def camelize (text : String) (keepOuterUnderscores : Bool) : Option String :=
  let startUnderscores :=
    if keepOuterUnderscores then String.mk (text.data.takeWhile (fun c => c = '_')) else ""
  let endUnderscores :=
    if keepOuterUnderscores then String.mk ((text.data.reverse.takeWhile (fun c => c = '_')).reverse) else ""
  let words := (jsSplitRuns (fun c => !c.isAlphanum) (jsTrim text)).filter (fun w => w ≠ "")
  match words with
  | [] => none
  | firstWord :: otherWords =>
    some (startUnderscores ++ String.mk (firstWord.data.map Char.toLower) ++
      jsJoin "" (otherWords.map capitalizeWord) ++ endUnderscores)

example : camelize "hello world" false = some "helloWorld" := by decide

example : camelize "_foo_bar_" true = some "_fooBar_" := by decide

/-- Translation of `withinCharLimit` (part_001 lines 1105-1127 / index.ts
lines 505-527), producing the list of lines (the source returns this array
when `asArray` is set, and the same lines joined with a newline otherwise).
`pre` models the `prefix` option (default `''`).  A word that would push
the current line past the limit causes the current line to be flushed and
the accumulator reset to the bare `pre` — the word itself is not appended
anywhere. -/
def withinCharLimit (text : String) (limit : Nat) (pre : String) : List String :=
  let step := fun (st : List String × String) (word : String) =>
    if limit < st.2.length + word.length then (st.1 ++ [jsTrimEnd st.2], pre)
    else (st.1, st.2 ++ word ++ " ")
  let fin := (jsSplitRuns Char.isWhitespace text).foldl step ([], pre)
  if fin.2 ≠ "" then fin.1 ++ [jsTrimEnd fin.2] else fin.1

/-! ### Membership lemmas for trimming and run-splitting -/

theorem mem_of_mem_dropWhile (p : Char → Bool) (l : List Char) (c : Char)
    (h : c ∈ l.dropWhile p) : c ∈ l :=
  (List.dropWhile_sublist p).mem h

theorem mem_of_mem_jsTrim (s : String) (c : Char) (h : c ∈ (jsTrim s).data) :
    c ∈ s.data := by
  simp only [jsTrim, jsTrimEnd, jsTrimStart] at h
  rw [List.mem_reverse] at h
  have h1 := mem_of_mem_dropWhile _ _ _ h
  rw [List.mem_reverse] at h1
  exact mem_of_mem_dropWhile _ _ _ h1

theorem mem_dropWhile_of_mem (p : Char → Bool) (l : List Char) (c : Char)
    (hc : c ∈ l) (hp : p c = false) : c ∈ l.dropWhile p := by
  induction l with
  | nil => simp at hc
  | cons x xs ih =>
    by_cases hx : p x = true
    · rw [List.dropWhile_cons, if_pos hx]
      rcases List.mem_cons.mp hc with rfl | hmem
      · rw [hp] at hx; exact absurd hx (by simp)
      · exact ih hmem
    · rw [List.dropWhile_cons, if_neg hx]
      exact hc

theorem mem_jsTrim_of_mem (s : String) (c : Char) (hc : c ∈ s.data)
    (hw : c.isWhitespace = false) : c ∈ (jsTrim s).data := by
  simp only [jsTrim, jsTrimEnd, jsTrimStart]
  rw [List.mem_reverse]
  apply mem_dropWhile_of_mem _ _ _ _ hw
  rw [List.mem_reverse]
  exact mem_dropWhile_of_mem _ _ _ hc hw

theorem splitRunsAux_all_sep_true (p : Char → Bool) (l acc : List Char)
    (h : ∀ c ∈ l, p c = true) : splitRunsAux p l acc true = [acc.reverse] := by
  induction l with
  | nil => rfl
  | cons c cs ih =>
    have hc := h c (by simp)
    rw [splitRunsAux, if_pos hc, if_pos rfl]
    exact ih (fun x hx => h x (by simp [hx]))

theorem splitRunsAux_all_sep_false (p : Char → Bool) (c : Char)
    (cs acc : List Char) (h : ∀ x ∈ c :: cs, p x = true) :
    splitRunsAux p (c :: cs) acc false = [acc.reverse, []] := by
  have hc := h c (by simp)
  rw [splitRunsAux, if_pos hc]
  simp only [Bool.false_eq_true, if_false]
  rw [splitRunsAux_all_sep_true p cs [] (fun x hx => h x (by simp [hx]))]
  rfl

theorem exists_piece_of_mem_acc (p : Char → Bool) (l : List Char) :
    ∀ acc flag c, c ∈ acc → ∃ w ∈ splitRunsAux p l acc flag, c ∈ w := by
  induction l with
  | nil =>
    intro acc flag c hc
    exact ⟨acc.reverse, by simp [splitRunsAux], by simpa using hc⟩
  | cons x xs ih =>
    intro acc flag c hc
    rw [splitRunsAux]
    by_cases hx : p x = true
    · rw [if_pos hx]
      by_cases hf : flag = true
      · rw [if_pos hf]
        exact ih acc true c hc
      · rw [if_neg hf]
        exact ⟨acc.reverse, by simp, by simpa using hc⟩
    · rw [if_neg hx]
      exact ih (x :: acc) false c (by simp [hc])

theorem exists_piece_of_mem (p : Char → Bool) (l : List Char) :
    ∀ acc flag c, c ∈ l → p c = false →
      ∃ w ∈ splitRunsAux p l acc flag, c ∈ w := by
  induction l with
  | nil => intro acc flag c hc; simp at hc
  | cons x xs ih =>
    intro acc flag c hc hp
    rw [splitRunsAux]
    rcases List.mem_cons.mp hc with rfl | hmem
    · rw [if_neg (by simp [hp])]
      exact exists_piece_of_mem_acc p xs (c :: acc) false c (by simp)
    · by_cases hx : p x = true
      · rw [if_pos hx]
        by_cases hf : flag = true
        · rw [if_pos hf]
          exact ih acc true c hmem hp
        · rw [if_neg hf]
          obtain ⟨w, hw, hcw⟩ := ih [] true c hmem hp
          exact ⟨w, by simp [hw], hcw⟩
      · rw [if_neg hx]
        exact ih (x :: acc) false c hmem hp

theorem not_whitespace_of_isAlphanum (c : Char) (h : c.isAlphanum = true) :
    c.isWhitespace = false := by
  by_contra hw
  have hw' : c.isWhitespace = true := by simpa using hw
  simp only [Char.isWhitespace, Bool.or_eq_true, decide_eq_true_eq] at hw'
  rcases hw' with ((rfl | rfl) | rfl) | rfl <;> exact absurd h (by decide)

/-- C9: `camelize` is not total.  On every input with no alphanumeric
character (the empty string included) the word list is empty and the JS
code throws (`words[0]` is `undefined`), modelled by `none`; and whenever
the input does contain a letter or digit the function returns a string. -/
theorem claim9_camelize_not_total :
    (∀ s k, (∀ c ∈ s.data, c.isAlphanum = false) → camelize s k = none) ∧
    (∀ s k c, c ∈ s.data → c.isAlphanum = true → (camelize s k).isSome = true) := by
  constructor
  · intro s k h
    have hwords :
        ((jsSplitRuns (fun c => !c.isAlphanum) (jsTrim s)).filter (fun w => w ≠ "")) = [] := by
      unfold jsSplitRuns
      rcases hl : (jsTrim s).data with _ | ⟨c, cs⟩
      · rfl
      · rw [splitRunsAux_all_sep_false]
        · rfl
        · intro x hx
          have hxs : x ∈ (jsTrim s).data := by rw [hl]; exact hx
          simp [h x (mem_of_mem_jsTrim s x hxs)]
    simp only [camelize]
    rw [hwords]
  · intro s k c hc halnum
    have hcw : c.isWhitespace = false := not_whitespace_of_isAlphanum c halnum
    have hct : c ∈ (jsTrim s).data := mem_jsTrim_of_mem s c hc hcw
    have hp : (fun c => !c.isAlphanum) c = false := by simp [halnum]
    obtain ⟨w, hw, hcw2⟩ :=
      exists_piece_of_mem (fun c => !c.isAlphanum) (jsTrim s).data [] false c hct hp
    have hwne : String.mk w ≠ "" := by
      intro he
      have hdata : w = ([] : List Char) := congrArg String.data he
      rw [hdata] at hcw2
      simp at hcw2
    have hmem : String.mk w ∈
        ((jsSplitRuns (fun c => !c.isAlphanum) (jsTrim s)).filter (fun w => w ≠ "")) := by
      rw [List.mem_filter]
      exact ⟨List.mem_map_of_mem String.mk hw, by simpa using hwne⟩
    rcases hws : ((jsSplitRuns (fun c => !c.isAlphanum) (jsTrim s)).filter (fun w => w ≠ "")) with
      _ | ⟨w0, ws⟩
    · rw [hws] at hmem; simp at hmem
    · simp only [camelize]
      rw [hws]
      rfl

theorem claim9_witness :
    camelize "- -" false = none ∧ (camelize "a b" false).isSome = true :=
  ⟨claim9_camelize_not_total.1 "- -" false (by decide),
   claim9_camelize_not_total.2 "a b" false 'a' (by decide) (by decide)⟩

/-- C10: `withinCharLimit` does not preserve the input text.  For the input
`"aaaa bbbb"` with limit 4 (and empty line start) the output is the single
line `"aaaa"`: the word `"bbbb"` overflows the current line, which is
flushed, and the word itself is discarded instead of being carried onto the
next line — it appears in no line of the output (not even as an infix). -/
theorem claim10_withinCharLimit_drops_words :
    withinCharLimit "aaaa bbbb" 4 "" = ["aaaa"] ∧
    "bbbb" ∈ jsSplitRuns Char.isWhitespace "aaaa bbbb" ∧
    ¬ (("bbbb" : String).data <:+: ("aaaa" : String).data) := by
  decide

/-! ### The timed progress simulator `temporaryMessage`

`temporaryMessage(message, time, {ticks, updateMessage, endLength,
cancellable})` (part_001 lines 513-601) is embedded as an event-loop model.
Times and increments are rationals (milliseconds).

The synchronous invocation turn.  `vscode.window.withProgress` invokes its
task callback directly, and an async callback runs synchronously up to its
first `await`; the callback's first suspension point is
`await new Promise((r) => setTimeout(r, time))`, *after* the interval and
the optional 100%-jump timeout have been registered.  Consequently the
statement `clearInterval(tickLoop)`, which the source places immediately
after the `withProgress(...)` call (not after awaiting its result), runs in
the same synchronous turn, sees the id of the already-registered interval,
and removes it before the event loop has had any chance to fire a timer.
`temporaryMessageSyncOps` lists, in source order, everything this turn does
to the host's report/timer facilities.

Timer delays: a negative or zero delay fires as soon as possible
(`max · 0`), matching JS timer clamping (and §7 of the spec: "zero or
negative intervals should be treated as fire immediately").  Rational
division is total (`q / 0 = 0`) whereas JS `(time - endLength) / ticks`
with `ticks = 0` is `Infinity`; the discrepancy is unobservable because the
interval delay only matters to an interval that survives the synchronous
turn, and this one never does. -/

/-- One action of the synchronous invocation turn of `temporaryMessage`. -/
inductive TMOp where
  | report (increment : ℚ)
  | setIntervalTick (delay : ℚ)
  | setTimeoutJump (delay : ℚ)
  | setTimeoutResolve (delay : ℚ)
  | clearTickInterval
deriving Repr, DecidableEq

/-- The synchronous turn of `temporaryMessage message time {ticks,
endLength}`, in source order: `progress.report({increment: 0})`; `tickLoop
= setInterval(..., (time - endLength) / ticks)`; `if (endLength > 0)
setTimeout(..., time - endLength)`; the `setTimeout(r, time)` of the
awaited promise; then — back in `temporaryMessage` after `withProgress`
returns — `clearInterval(tickLoop)`. -/
def temporaryMessageSyncOps (time ticks endLength : ℚ) : List TMOp :=
  [TMOp.report 0, TMOp.setIntervalTick ((time - endLength) / ticks)] ++
  (if 0 < endLength then [TMOp.setTimeoutJump (time - endLength)] else []) ++
  [TMOp.setTimeoutResolve time, TMOp.clearTickInterval]

/-- The host's timer state after the synchronous turn: the recurring tick
interval (if still registered, with its period), the fire time of the
one-shot 100%-jump timeout, the fire time of the resolve timeout, and the
increments reported synchronously (all at invocation time 0). -/
structure TMSchedule where
  tickInterval : Option ℚ
  jumpAt : Option ℚ
  resolveAt : ℚ
  initialReports : List ℚ
deriving Repr, DecidableEq

def tmInit : TMSchedule :=
  { tickInterval := none, jumpAt := none, resolveAt := 0, initialReports := [] }

def applyOp (st : TMSchedule) : TMOp → TMSchedule
  | TMOp.report inc => { st with initialReports := st.initialReports ++ [inc] }
  | TMOp.setIntervalTick d => { st with tickInterval := some d }
  | TMOp.setTimeoutJump d => { st with jumpAt := some (max d 0) }
  | TMOp.setTimeoutResolve d => { st with resolveAt := max d 0 }
  | TMOp.clearTickInterval => { st with tickInterval := none }

def temporaryMessageSchedule (time ticks endLength : ℚ) : TMSchedule :=
  (temporaryMessageSyncOps time ticks endLength).foldl applyOp tmInit

/-- Fire times of a surviving recurring timer with period `p`, up to and
including `resolveAt` (at a tie the interval fires before the resolve
timeout, having been registered first).  A surviving non-positive period
over a positive window would fire unboundedly often — no finite trace,
hence `none`; in the source the interval never survives the synchronous
turn. -/
def tickTimes (interval : Option ℚ) (resolveAt : ℚ) : Option (List ℚ) :=
  match interval with
  | none => some []
  | some p =>
    if 0 < p then
      some ((List.range ⌊resolveAt / p⌋.toNat).map
        (fun (k : Nat) => ((k : ℚ) + 1) * p))
    else if resolveAt ≤ 0 then some [] else none

/-- One `progress.report` call: its wall-clock time and its `increment`. -/
structure TMReport where
  atTime : ℚ
  increment : ℚ
deriving Repr, DecidableEq

def mergeByTimeAux : Nat → List TMReport → List TMReport → List TMReport
  | 0, xs, ys => xs ++ ys
  | _ + 1, [], ys => ys
  | _ + 1, x :: xs, [] => x :: xs
  | n + 1, x :: xs, y :: ys =>
    if x.atTime ≤ y.atTime then x :: mergeByTimeAux n xs (y :: ys)
    else y :: mergeByTimeAux n (x :: xs) ys

/-- Merge two chronological report lists; at equal times the left list (the
earlier-registered timer) fires first. -/
def mergeByTime (xs ys : List TMReport) : List TMReport :=
  mergeByTimeAux (xs.length + ys.length) xs ys

/-- The chronological trace of `progress.report` calls issued by one
invocation of `temporaryMessage`, from invocation until the overall wait
resolves: the synchronous initial report(s) at time 0, the surviving tick
interval's reports (increment `100 / ticks` each), and the one-shot
100%-jump report (increment `100`), when it fires no later than the
resolve.  `none` when the trace would be infinite. -/
def tmTrace (time ticks endLength : ℚ) : Option (List TMReport) :=
  let sched := temporaryMessageSchedule time ticks endLength
  match tickTimes sched.tickInterval sched.resolveAt with
  | none => none
  | some tts =>
    let tickReps := tts.map (fun t => TMReport.mk t (100 / ticks))
    let jumpReps :=
      match sched.jumpAt with
      | none => []
      | some j => if j ≤ sched.resolveAt then [TMReport.mk j 100] else []
    some ((sched.initialReports.map (fun inc => TMReport.mk 0 inc)) ++
      mergeByTime tickReps jumpReps)

/-- The wall-clock time at which the awaited promise resolves, resolving
the `withProgress` thenable and dismissing the notification. -/
def tmResolveAt (time ticks endLength : ℚ) : ℚ :=
  (temporaryMessageSchedule time ticks endLength).resolveAt

/-- Host model of the notification's indicator: reported increments
accumulate, and the displayed percentage is capped at 100. -/
def hostPercentAt (trace : List TMReport) (t : ℚ) : ℚ :=
  min 100 (((trace.filter (fun r => decide (r.atTime ≤ t))).map
    TMReport.increment).sum)

/-- Had the synchronous turn not ended with `clearTickInterval` (i.e.
dropping the misplaced `clearInterval`), the interval of the
`duration=1000, ticks=10, endLength=0` invocation would survive with period
100 and fire exactly 10 ticks before the resolve at 1000, each reporting an
increment of `100 / 10 = 10`. -/
theorem ticks_would_fire_without_clear :
    ((temporaryMessageSyncOps 1000 10 0).dropLast.foldl applyOp tmInit).tickInterval
      = some 100 ∧
    ((tickTimes (some 100) 1000).getD []).length = 10 ∧
    (100 : ℚ) / 10 = 10 := by
  refine ⟨?_, ?_, by norm_num⟩
  · simp only [temporaryMessageSyncOps]
    rw [if_neg (by norm_num : ¬ ((0 : ℚ) < 0))]
    simp only [List.append_nil, List.nil_append, List.cons_append, List.dropLast,
      List.foldl, applyOp, tmInit]
    norm_num
  · simp only [tickTimes]
    rw [if_pos (by norm_num : (0 : ℚ) < 100)]
    have hq : ((1000 : ℚ) / 100) = 10 := by norm_num
    rw [hq]
    simp only [Option.getD_some, List.length_map, List.length_range]
    norm_num
    rfl

/-- C4: evaluating the model at `duration=1000, ticks=10, endLength=0`: the
trace contains only the synchronous 0% report — the tick interval is
cleared during the invocation turn itself, before any tick can fire, so no
incremental tick reports are issued at all (the claim and the source's
comments call for 10 reports of 10).  The resolve does occur at 1000 ms. -/
theorem claim4_no_tick_reports :
    tmTrace 1000 10 0 = some [TMReport.mk 0 0] ∧
    tmResolveAt 1000 10 0 = 1000 ∧
    (temporaryMessageSchedule 1000 10 0).tickInterval = none := by
  decide

/-- C5: evaluating the model at `duration=1000, ticks=10, endLength=300`:
the last action of the synchronous invocation turn is clearing the tick
interval, so the interval is already gone when the turn ends (wall-clock
time 0), while the overall wait completes only at 1000 ms — the clear does
not happen "once the overall wait completes". -/
theorem claim5_interval_cleared_before_wait :
    (temporaryMessageSyncOps 1000 10 300).getLast? = some TMOp.clearTickInterval ∧
    (temporaryMessageSchedule 1000 10 300).tickInterval = none ∧
    tmResolveAt 1000 10 300 = 1000 := by
  decide

/-- C6 counterexample: `duration=1000, ticks=100, endLength=2000` (an
invocation with `endLength > 0`).  The one-shot jump cannot fire at offset
`duration - endLength = -1000`; it fires at 0, and the indicator sits at
100% for the 1000 ms until dismissal — not for `endLength = 2000` ms —
refuting the claim for this invocation. -/
theorem claim6_counterexample :
    tmTrace 1000 100 2000 = some [TMReport.mk 0 0, TMReport.mk 0 100] ∧
    tmResolveAt 1000 100 2000 - 0 = 1000 ∧
    ((1000 : ℚ) ≠ 2000) := by
  have h1 : max ((1000 : ℚ) - 2000) 0 = 0 := max_eq_right (by norm_num)
  have h2 : max (1000 : ℚ) 0 = 1000 := max_eq_left (by norm_num)
  have hsched : temporaryMessageSchedule 1000 100 2000 =
      { tickInterval := none, jumpAt := some 0, resolveAt := 1000,
        initialReports := [0] } := by
    simp only [temporaryMessageSchedule, temporaryMessageSyncOps]
    rw [if_pos (by norm_num : (0 : ℚ) < 2000)]
    simp only [List.cons_append, List.nil_append, List.foldl, applyOp, tmInit, h1, h2]
  refine ⟨?_, ?_, by norm_num⟩
  · simp only [tmTrace, hsched, tickTimes, mergeByTime, mergeByTimeAux, List.map,
      List.length_nil, List.length_cons]
    rw [if_pos (by norm_num : (0 : ℚ) ≤ 1000)]
    rfl
  · simp [tmResolveAt, hsched]

/-- C6 (amended): for every invocation with `0 < endLength ≤ duration`, the
one-shot step fires at wall-clock offset `duration - endLength` with
increment 100, driving the host indicator (which accumulates increments,
capped at 100) to exactly 100%, where it stays until the notification is
dismissed at `duration` — i.e. it holds 100% for exactly `endLength`
milliseconds.  (The `endLength > duration` case fails: the timer cannot
fire at a negative offset; see the counterexample.) -/
theorem claim6_jump_holds_hundred :
    ∀ time ticks endLength : ℚ, 0 < endLength → endLength ≤ time →
      tmTrace time ticks endLength =
        some [TMReport.mk 0 0, TMReport.mk (time - endLength) 100] ∧
      (∀ t, time - endLength ≤ t →
        hostPercentAt ((tmTrace time ticks endLength).getD []) t = 100) ∧
      tmResolveAt time ticks endLength - (time - endLength) = endLength := by
  intro time ticks endLength he hle
  have htime : (0 : ℚ) < time := lt_of_lt_of_le he hle
  have h1 : max (time - endLength) 0 = time - endLength :=
    max_eq_left (sub_nonneg.mpr hle)
  have h2 : max time 0 = time := max_eq_left htime.le
  have hsched : temporaryMessageSchedule time ticks endLength =
      { tickInterval := none, jumpAt := some (time - endLength),
        resolveAt := time, initialReports := [0] } := by
    simp only [temporaryMessageSchedule, temporaryMessageSyncOps]
    rw [if_pos he]
    simp only [List.cons_append, List.nil_append, List.foldl, applyOp, tmInit, h1, h2]
  have hjle : time - endLength ≤ time := by linarith
  have htr : tmTrace time ticks endLength =
      some [TMReport.mk 0 0, TMReport.mk (time - endLength) 100] := by
    simp only [tmTrace, hsched, tickTimes, List.map, mergeByTime, mergeByTimeAux,
      List.length_nil, List.length_cons]
    rw [if_pos hjle]
    rfl
  refine ⟨htr, ?_, by simp [tmResolveAt, hsched]⟩
  intro t ht
  rw [htr]
  have h0j : (0 : ℚ) ≤ time - endLength := sub_nonneg.mpr hle
  have h0t : (0 : ℚ) ≤ t := le_trans h0j ht
  simp only [Option.getD_some, hostPercentAt, List.filter_cons, List.filter_nil]
  simp [h0t, ht]

theorem claim6_witness :
    tmTrace 1000 100 300 = some [TMReport.mk 0 0, TMReport.mk (1000 - 300) 100] ∧
    hostPercentAt ((tmTrace 1000 100 300).getD []) 800 = 100 ∧
    tmResolveAt 1000 100 300 - (1000 - 300) = 300 :=
  ⟨(claim6_jump_holds_hundred 1000 100 300 (by norm_num) (by norm_num)).1,
   (claim6_jump_holds_hundred 1000 100 300 (by norm_num) (by norm_num)).2.1 800
     (by norm_num),
   (claim6_jump_holds_hundred 1000 100 300 (by norm_num) (by norm_num)).2.2⟩

end VSCX
